import Mathlib

/-!
Shallow embedding of `parse_borealis_data.py` from sofarocean/borealis-tools.

Modelling conventions:
* Python `bytes` buffers are `List ℕ` whose entries are below 256; indexing
  `raw_bytes[i]` is `List.getD` (every access made by the source is in bounds,
  as proved below where it matters).
* Python floats are modelled as exact rationals (`ℚ`) in the decode path,
  where every operation performed by the source is rational, and as reals
  (`ℝ`) in the frequency-axis generators, which use `math.log`, `math.ceil`
  and non-integer powers.
* `base64.b64decode` (CPython `binascii.a2b_base64`, non-strict mode) is
  modelled as a total function returning `Option (List ℕ)`; a Python
  exception is `none`.  Python first encodes the `str` argument as ASCII,
  so any character above 127 makes the decode fail.
-/

namespace Borealis

/-- Value of a character in the standard base64 alphabet (`A`-`Z`, `a`-`z`,
`0`-`9`, `+`, `/`), or `none` for any other character. -/
def b64Value (c : Char) : Option ℕ :=
  let n := c.toNat
  if 65 ≤ n ∧ n ≤ 90 then some (n - 65)
  else if 97 ≤ n ∧ n ≤ 122 then some (n - 97 + 26)
  else if 48 ≤ n ∧ n ≤ 57 then some (n - 48 + 52)
  else if n = 43 then some 62
  else if n = 47 then some 63
  else none

/-- Core loop of CPython `binascii.a2b_base64` in non-strict mode (the mode
used by `base64.b64decode` with `validate=False`, as in the source).  State:
remaining characters, `quad_pos` (position inside the current 4-character
quantum), `leftchar` (bits carried between characters) and `pads` (padding
characters seen in the current quantum).  Characters outside the alphabet are
skipped; `=` at `quad_pos ≥ 2` counts as padding and completes the quantum
(stopping the scan); a quantum left incomplete at the end of input is an
error (`none`). -/
def b64DecodeAux : List Char → ℕ → ℕ → ℕ → Option (List ℕ)
  | [], 0, _, _ => some []
  | [], _ + 1, _, _ => none
  | c :: rest, quad_pos, leftchar, pads =>
    if c = '=' then
      if 2 ≤ quad_pos ∧ 4 ≤ quad_pos + (pads + 1) then some []
      else b64DecodeAux rest quad_pos leftchar
        (if 2 ≤ quad_pos then pads + 1 else pads)
    else
      match b64Value c with
      | none => b64DecodeAux rest quad_pos leftchar pads
      | some v =>
        match quad_pos with
        | 0 => b64DecodeAux rest 1 v 0
        | 1 => (b64DecodeAux rest 2 (v &&& 15) 0).map
            (fun l => ((leftchar <<< 2) ||| (v >>> 4)) :: l)
        | 2 => (b64DecodeAux rest 3 (v &&& 3) 0).map
            (fun l => ((leftchar <<< 4) ||| (v >>> 2)) :: l)
        | _ => (b64DecodeAux rest 0 0 0).map
            (fun l => ((leftchar <<< 6) ||| v) :: l)

/-- Model of Python `base64.b64decode` on a `str` argument: encode as ASCII
(fails on any character above 127), then run the non-strict base64 scan. -/
def b64decode (s : String) : Option (List ℕ) :=
  if s.data.all (fun c => c.toNat < 128) then b64DecodeAux s.data 0 0 0
  else none

/-- `MIN_BOREALIS_SPL_DB: float = -192 + 185.642`; the 185.642 constant is
specific to the first version of Borealis. -/
def MIN_BOREALIS_SPL_DB : ℚ := -192 + 185.642

/-- `calculate_ansi_midband_frequency`: ANSI S1.11 midband frequency for a
zero-based band index, `10 ** (band_number / 10)` with
`band_number = band_index + 16`. -/
noncomputable def calculate_ansi_midband_frequency (band_index : ℕ) : ℝ :=
  let band_number := band_index + 16
  (10 : ℝ) ^ ((band_number : ℝ) / 10)

/-- The `while f <= 20000 and len(log_freqs) < 200` loop of
`calculate_pgram_frequencies`, with the remaining-capacity of the 200-entry
cap as the recursion fuel: each pass emits `f` if `f ≤ 20000` and capacity is
left, then continues from `f * factor`. -/
noncomputable def pgram_log_freqs (factor : ℝ) : ℝ → ℕ → List ℝ
  | _, 0 => []
  | f, fuel + 1 =>
    if f ≤ 20000 then f :: pgram_log_freqs factor (f * factor) fuel
    else []

/-- `calculate_pgram_frequencies`: hybrid linear/log frequency bins.
Linear bins `i * df` for `i = 2, ..., N-1` with `N = ceil(bpo / log 2)`,
followed by log-spaced bins from `N * df` with ratio `2 ** (1 / bpo)`,
emitted while `f ≤ 20000` up to a cap of 200.  (The source defaults
`bands_per_octave` to 24; callers below pass 24 explicitly.) -/
noncomputable def calculate_pgram_frequencies (df : ℝ)
    (bands_per_octave : ℕ) : List ℝ :=
  let N : ℕ := ⌈(bands_per_octave : ℝ) / Real.log 2⌉₊
  let linear_freqs : List ℝ := (List.range' 2 (N - 2)).map
    (fun i : ℕ => (i : ℝ) * df)
  let f_start : ℝ := (N : ℝ) * df
  let factor : ℝ := (2 : ℝ) ^ ((1 : ℝ) / (bands_per_octave : ℝ))
  linear_freqs ++ pgram_log_freqs factor f_start 200

/-- `unpack_nibble`: nibble `inibble_abs` of the buffer, i.e. the low nibble
of byte `inibble_abs // 2` when `inibble_abs` is even and its high nibble
when odd: `(bytes[ibyte] >> (4 * inibble)) & 0xF`. -/
def unpack_nibble (bytes : List ℕ) (inibble_abs : ℕ) : ℕ :=
  let ibyte := inibble_abs / 2
  let inibble := inibble_abs % 2
  ((bytes.getD ibyte 0) >>> (4 * inibble)) &&& 15

/-- `unpack_three_nibbles`: a 12-bit sample from three consecutive nibbles,
low nibble first. -/
def unpack_three_nibbles (bytes : List ℕ) (inibble_abs : ℕ) : ℕ :=
  (unpack_nibble bytes (inibble_abs + 0) <<< 0)
    ||| (unpack_nibble bytes (inibble_abs + 1) <<< 4)
    ||| (unpack_nibble bytes (inibble_abs + 2) <<< 8)

/-- `calc_db_step_for_bits`: dB per count at a given bit depth,
`192 / 2**bits_per_datum`. -/
def calc_db_step_for_bits (bits_per_datum : ℕ) : ℚ :=
  let data_range : ℕ := 2 ^ bits_per_datum
  192 / (data_range : ℚ)

/-- The calibration transform of spec §4.3, as applied inline by each parse
function in the source: `rescale(raw, bits) = raw * (192 / 2^bits) + MIN_SPL`. -/
def rescale (raw : ℕ) (bits : ℕ) : ℚ :=
  (raw : ℚ) * calc_db_step_for_bits bits + MIN_BOREALIS_SPL_DB

/-- `parse_borealis_spectrum`: base64-decode, then extract
`floor(len*2/3)` 12-bit samples (3 nibbles each, starting at nibble `3*id`)
and rescale each to dB. -/
def parse_borealis_spectrum (base64_string : String) : Option (List ℚ) :=
  match b64decode base64_string with
  | none => none
  | some raw_bytes =>
    let cstep : ℚ := calc_db_step_for_bits 12
    let D : ℕ := raw_bytes.length * 2 / 3
    some ((List.range D).map
      (fun id => (unpack_three_nibbles raw_bytes (3 * id) : ℚ) * cstep
        + MIN_BOREALIS_SPL_DB))

/-- `parse_borealis_pgram`: base64-decode, then rescale each byte to dB.
The `df` parameter is accepted (as in the source signature) but unused. -/
def parse_borealis_pgram (base64_string : String) (df : ℚ) : Option (List ℚ) :=
  match b64decode base64_string with
  | none => none
  | some raw_bytes =>
    let cstep : ℚ := calc_db_step_for_bits 8
    let _ := df
    some ((List.range raw_bytes.length).map
      (fun i => (raw_bytes.getD i 0 : ℚ) * cstep + MIN_BOREALIS_SPL_DB))

/-- `parse_borealis_levels_stats`: base64-decode, rescale the first
`4 * (len / 4)` bytes to dB, and reshape into `len / 4` rows of 4
(`tmp[i : i+K]` for `i = 0, K, ..., K*(D-1)`). -/
def parse_borealis_levels_stats (base64_string : String) :
    Option (List (List ℚ)) :=
  match b64decode base64_string with
  | none => none
  | some raw_bytes =>
    let cstep : ℚ := calc_db_step_for_bits 8
    let K : ℕ := 4
    let D : ℕ := raw_bytes.length / K
    let tmp : List ℚ := (List.range (D * K)).map
      (fun id => (raw_bytes.getD id 0 : ℚ) * cstep + MIN_BOREALIS_SPL_DB)
    some ((List.range D).map (fun i => (tmp.drop (K * i)).take K))

/-! ### Spec-side formulations used for refinement comparisons -/

/-- Spec-side description of nibble `k` of a byte buffer: byte `k / 2`, the
low 4 bits when `k` is even and the high 4 bits when `k` is odd.  (Stated
from the claim's words, to be compared with `unpack_nibble`.) -/
def nibble_spec (bytes : List ℕ) (k : ℕ) : ℕ :=
  if k % 2 = 0 then (bytes.getD (k / 2) 0) % 16 else (bytes.getD (k / 2) 0) / 16

/-! ### Helper lemmas -/

theorem getD_lt_256 {bytes : List ℕ} (hb : ∀ b ∈ bytes, b < 256) (i : ℕ) :
    bytes.getD i 0 < 256 := by
  rcases Nat.lt_or_ge i bytes.length with h | h
  · rw [List.getD_eq_getElem _ _ h]
    exact hb _ (List.getElem_mem h)
  · rw [List.getD_eq_default _ _ h]
    norm_num

theorem unpack_nibble_eq_spec {bytes : List ℕ} (hb : ∀ b ∈ bytes, b < 256)
    (k : ℕ) : unpack_nibble bytes k = nibble_spec bytes k := by
  unfold unpack_nibble nibble_spec
  have hand : ∀ n : ℕ, n &&& 15 = n % 16 := by
    intro n
    have := Nat.and_pow_two_sub_one_eq_mod n 4
    norm_num at this
    exact this
  rcases Nat.mod_two_eq_zero_or_one k with h | h
  · rw [h, if_pos rfl]
    show bytes.getD (k / 2) 0 >>> (4 * 0) &&& 15 = _
    rw [Nat.mul_zero, Nat.shiftRight_zero, hand]
  · rw [h, if_neg (by omega)]
    show bytes.getD (k / 2) 0 >>> (4 * 1) &&& 15 = _
    rw [Nat.mul_one, Nat.shiftRight_eq_div_pow, hand]
    have := getD_lt_256 hb (k / 2)
    omega

theorem unpack_nibble_lt_16 (bytes : List ℕ) (k : ℕ) :
    unpack_nibble bytes k < 16 := by
  unfold unpack_nibble
  exact Nat.lt_succ_of_le Nat.and_le_right

theorem unpack_three_nibbles_lt_4096 (bytes : List ℕ) (k : ℕ) :
    unpack_three_nibbles bytes k < 4096 := by
  unfold unpack_three_nibbles
  have h0 := unpack_nibble_lt_16 bytes (k + 0)
  have h1 := unpack_nibble_lt_16 bytes (k + 1)
  have h2 := unpack_nibble_lt_16 bytes (k + 2)
  have e : (4096 : ℕ) = 2 ^ 12 := by norm_num
  rw [e]
  apply Nat.or_lt_two_pow
  · apply Nat.or_lt_two_pow
    · rw [Nat.shiftLeft_eq]
      omega
    · rw [Nat.shiftLeft_eq]
      omega
  · rw [Nat.shiftLeft_eq]
    omega

theorem map_range_drop_take_four {α : Type} (f : ℕ → α) (n m : ℕ)
    (h : m + 4 ≤ n) :
    (((List.range n).map f).drop m).take 4
      = [f m, f (m + 1), f (m + 2), f (m + 3)] := by
  apply List.ext_getElem?
  intro j
  rcases Nat.lt_or_ge j 4 with hj | hj
  · rw [List.getElem?_take_of_lt hj, List.getElem?_drop, List.getElem?_map,
      List.getElem?_range (by omega)]
    interval_cases j <;> simp
  · rw [List.getElem?_take_eq_none ?_]
    · symm
      apply List.getElem?_eq_none
      simp only [List.length_cons, List.length_nil]
      omega
    · simpa using hj

/-! ### Claim theorems -/

/-- C8: for every zero-based band index `i`, the ANSI decidecade midband
frequency returned by `calculate_ansi_midband_frequency i` equals
`10 ^ ((i + 16) / 10)` Hz. -/
theorem ansi_midband_eq_formula (i : ℕ) :
    calculate_ansi_midband_frequency i = (10 : ℝ) ^ (((i : ℝ) + 16) / 10) := by
  unfold calculate_ansi_midband_frequency
  push_cast
  rfl

/-- C4: for every bit depth `bits`, the calibration transform satisfies
`rescale 0 bits = MIN_SPL` and
`rescale (2^bits - 1) bits = MIN_SPL + 192 - 192 / 2^bits`, which is
strictly below the absolute ceiling `MIN_SPL + 192`; and
`MIN_SPL = -192 + 185.642`. -/
theorem rescale_range (bits : ℕ) :
    rescale 0 bits = MIN_BOREALIS_SPL_DB ∧
    rescale (2 ^ bits - 1) bits
      = MIN_BOREALIS_SPL_DB + 192 - 192 / (2 ^ bits : ℚ) ∧
    MIN_BOREALIS_SPL_DB + 192 - 192 / (2 ^ bits : ℚ)
      < MIN_BOREALIS_SPL_DB + 192 ∧
    MIN_BOREALIS_SPL_DB = -192 + 185.642 := by
  have h2 : ((2 : ℚ) ^ bits) ≠ 0 := by positivity
  refine ⟨?_, ?_, ?_, rfl⟩
  · unfold rescale
    simp
  · unfold rescale calc_db_step_for_bits
    have h1 : (1 : ℕ) ≤ 2 ^ bits := Nat.one_le_two_pow
    rw [Nat.cast_sub h1]
    push_cast
    field_simp
    ring
  · have : (0 : ℚ) < 192 / (2 ^ bits : ℚ) := by positivity
    linarith

/-- C2: for every byte buffer and nibble index `k` with nibbles `k`, `k+1`,
`k+2` inside the buffer, the extracted 12-bit sample equals
`nibble k ||| (nibble (k+1) <<< 4) ||| (nibble (k+2) <<< 8)`, where nibble
`k` is the low 4 bits of byte `k / 2` when `k` is even and its high 4 bits
when `k` is odd. -/
theorem unpack_three_nibbles_eq_spec (bytes : List ℕ) (k : ℕ)
    (hb : ∀ b ∈ bytes, b < 256) (_hk : k + 2 < 2 * bytes.length) :
    unpack_three_nibbles bytes k =
      nibble_spec bytes k ||| (nibble_spec bytes (k + 1) <<< 4)
        ||| (nibble_spec bytes (k + 2) <<< 8) := by
  unfold unpack_three_nibbles
  rw [unpack_nibble_eq_spec hb, unpack_nibble_eq_spec hb,
    unpack_nibble_eq_spec hb]
  simp

/-- C1: for every input string that base64-decodes to a byte buffer of
length `L`, `parse_borealis_spectrum` returns a sequence of exactly
`L * 2 / 3` SPL values, each in `[MIN_SPL, MIN_SPL + 192]`; a trailing
remainder of `2L` nibbles modulo 3 is truncated rather than failing. -/
theorem parse_spectrum_length_and_range (s : String) (bs : List ℕ)
    (h : b64decode s = some bs) :
    ∃ l, parse_borealis_spectrum s = some l ∧
      l.length = bs.length * 2 / 3 ∧
      ∀ x ∈ l, MIN_BOREALIS_SPL_DB ≤ x ∧ x ≤ MIN_BOREALIS_SPL_DB + 192 := by
  refine ⟨_, by unfold parse_borealis_spectrum; rw [h], by simp, ?_⟩
  intro x hx
  simp only [List.mem_map, List.mem_range] at hx
  obtain ⟨id, _, rfl⟩ := hx
  have hu : unpack_three_nibbles bs (3 * id) < 4096 :=
    unpack_three_nibbles_lt_4096 bs (3 * id)
  have hcast : (unpack_three_nibbles bs (3 * id) : ℚ) ≤ 4095 := by
    exact_mod_cast Nat.le_of_lt_succ hu
  have hnn : (0 : ℚ) ≤ (unpack_three_nibbles bs (3 * id) : ℚ) :=
    Nat.cast_nonneg _
  have hstep : calc_db_step_for_bits 12 = 3 / 64 := by
    norm_num [calc_db_step_for_bits]
  constructor
  · have : (0 : ℚ) ≤ (unpack_three_nibbles bs (3 * id) : ℚ)
      * calc_db_step_for_bits 12 := by
      rw [hstep]
      positivity
    linarith
  · rw [hstep]
    nlinarith

/-- Witness for C1 at the 3-byte input `"QUJD"` (decodes to `[65, 66, 67]`). -/
theorem parse_spectrum_length_and_range_witness :
    b64decode ("QUJD") = some [65, 66, 67] ∧
    (∃ l, parse_borealis_spectrum ("QUJD") = some l ∧
      l.length = ([65, 66, 67] : List ℕ).length * 2 / 3 ∧
      ∀ x ∈ l, MIN_BOREALIS_SPL_DB ≤ x ∧ x ≤ MIN_BOREALIS_SPL_DB + 192) :=
  ⟨by decide, parse_spectrum_length_and_range ("QUJD") [65, 66, 67] (by decide)⟩

/-- C3: whenever the base64 decode fails, all three parse functions return
`none` (and, being total functions into `Option`, raise nothing); in
particular the string `"invalid_base64_string!"` yields `none` from all
three. -/
theorem parse_none_on_decode_failure :
    (∀ s df, b64decode s = none →
      parse_borealis_spectrum s = none ∧
      parse_borealis_levels_stats s = none ∧
      parse_borealis_pgram s df = none) ∧
    b64decode ("invalid_base64_string!") = none ∧
    parse_borealis_spectrum ("invalid_base64_string!") = none ∧
    parse_borealis_levels_stats ("invalid_base64_string!") = none ∧
    parse_borealis_pgram ("invalid_base64_string!") 7.629 = none := by
  refine ⟨?_, by decide, by decide, by decide, by decide⟩
  intro s df h
  unfold parse_borealis_spectrum parse_borealis_levels_stats
    parse_borealis_pgram
  rw [h]
  exact ⟨rfl, rfl, rfl⟩

/-- Witness for C3's universal part at the malformed input `"QQ="` (one
padding character short). -/
theorem parse_none_on_decode_failure_witness :
    b64decode ("QQ=") = none ∧
    (parse_borealis_spectrum ("QQ=") = none ∧
      parse_borealis_levels_stats ("QQ=") = none ∧
      parse_borealis_pgram ("QQ=") 0 = none) :=
  ⟨by decide, parse_none_on_decode_failure.1 ("QQ=") 0 (by decide)⟩

/-- C9: the decoded pgram SPL series does not depend on `df`, and on a
successful decode it has exactly one entry per byte of the decoded buffer. -/
theorem parse_pgram_df_irrelevant (s : String) (df₁ df₂ : ℚ) :
    parse_borealis_pgram s df₁ = parse_borealis_pgram s df₂ ∧
    ∀ bs, b64decode s = some bs →
      ∃ l, parse_borealis_pgram s df₁ = some l ∧ l.length = bs.length := by
  constructor
  · rfl
  · intro bs h
    refine ⟨_, by unfold parse_borealis_pgram; rw [h], by simp⟩

/-- Witness for C9 at `"QUJD"` with `df₁ = 0`, `df₂ = 1`. -/
theorem parse_pgram_df_irrelevant_witness :
    b64decode ("QUJD") = some [65, 66, 67] ∧
    parse_borealis_pgram ("QUJD") 0 = parse_borealis_pgram ("QUJD") 1 ∧
    (∃ l, parse_borealis_pgram ("QUJD") 0 = some l ∧
      l.length = ([65, 66, 67] : List ℕ).length) :=
  ⟨by decide, (parse_pgram_df_irrelevant ("QUJD") 0 1).1,
    (parse_pgram_df_irrelevant ("QUJD") 0 1).2 [65, 66, 67] (by decide)⟩

/-- C7: for every input string that base64-decodes to a byte buffer of
length `L`, `parse_borealis_levels_stats` returns exactly `L / 4` rows, each
being the 4 rescaled values of 4 consecutive bytes (`[Q1, Q2, Q3, Mean]` of
one band); trailing bytes not completing a group of 4 are dropped. -/
theorem parse_stats_shape (s : String) (bs : List ℕ)
    (h : b64decode s = some bs) :
    ∃ r, parse_borealis_levels_stats s = some r ∧
      r.length = bs.length / 4 ∧
      ∀ i < r.length, r.getD i [] =
        [(bs.getD (4 * i) 0 : ℚ) * calc_db_step_for_bits 8
            + MIN_BOREALIS_SPL_DB,
          (bs.getD (4 * i + 1) 0 : ℚ) * calc_db_step_for_bits 8
            + MIN_BOREALIS_SPL_DB,
          (bs.getD (4 * i + 2) 0 : ℚ) * calc_db_step_for_bits 8
            + MIN_BOREALIS_SPL_DB,
          (bs.getD (4 * i + 3) 0 : ℚ) * calc_db_step_for_bits 8
            + MIN_BOREALIS_SPL_DB] := by
  refine ⟨_, by unfold parse_borealis_levels_stats; rw [h], by simp, ?_⟩
  intro i hi
  simp only [List.length_map, List.length_range] at hi
  rw [List.getD_eq_getElem _ _ (by simpa using hi)]
  rw [List.getElem_map, List.getElem_range]
  rw [map_range_drop_take_four _ _ _ (by omega)]

/-- Witness for C7 at the 4-byte input `"QUJDRA=="` (decodes to
`[65, 66, 67, 68]`). -/
theorem parse_stats_shape_witness :
    b64decode ("QUJDRA==") = some [65, 66, 67, 68] ∧
    (∃ r, parse_borealis_levels_stats ("QUJDRA==") = some r ∧
      r.length = ([65, 66, 67, 68] : List ℕ).length / 4 ∧
      ∀ i < r.length, r.getD i [] =
        [(([65, 66, 67, 68] : List ℕ).getD (4 * i) 0 : ℚ)
            * calc_db_step_for_bits 8 + MIN_BOREALIS_SPL_DB,
          (([65, 66, 67, 68] : List ℕ).getD (4 * i + 1) 0 : ℚ)
            * calc_db_step_for_bits 8 + MIN_BOREALIS_SPL_DB,
          (([65, 66, 67, 68] : List ℕ).getD (4 * i + 2) 0 : ℚ)
            * calc_db_step_for_bits 8 + MIN_BOREALIS_SPL_DB,
          (([65, 66, 67, 68] : List ℕ).getD (4 * i + 3) 0 : ℚ)
            * calc_db_step_for_bits 8 + MIN_BOREALIS_SPL_DB]) :=
  ⟨by decide, parse_stats_shape ("QUJDRA==") [65, 66, 67, 68] (by decide)⟩

theorem pgram_N_eq : ⌈(24 : ℝ) / Real.log 2⌉₊ = 35 := by
  have hlog_pos : 0 < Real.log 2 := Real.log_pos (by norm_num)
  have hgt := Real.log_two_gt_d9
  have hlt := Real.log_two_lt_d9
  rw [Nat.ceil_eq_iff (by norm_num)]
  constructor
  · push_cast
    rw [lt_div_iff₀ hlog_pos]
    nlinarith
  · push_cast
    rw [div_le_iff₀ hlog_pos]
    nlinarith

/-- The log-ratio `2 ** (1 / 24)` used for 24 bands per octave. -/
noncomputable def pgram_factor : ℝ := (2 : ℝ) ^ ((1 : ℝ) / 24)

theorem one_lt_pgram_factor : 1 < pgram_factor := by
  unfold pgram_factor
  rw [Real.one_lt_rpow_iff_of_pos (by norm_num)]
  exact Or.inl ⟨by norm_num, by norm_num⟩

/-- Unfolding of `calculate_pgram_frequencies` at 24 bands per octave, with
the transition index evaluated to 35. -/
theorem calculate_pgram_frequencies_eq (df : ℝ) :
    calculate_pgram_frequencies df 24 =
      ((List.range' 2 33).map fun i : ℕ => (i : ℝ) * df)
        ++ pgram_log_freqs pgram_factor (35 * df) 200 := by
  unfold calculate_pgram_frequencies pgram_factor
  have h24 : ((24 : ℕ) : ℝ) = (24 : ℝ) := by norm_num
  rw [h24, pgram_N_eq]
  norm_num

theorem pgram_log_freqs_length_le (factor : ℝ) (f : ℝ) (fuel : ℕ) :
    (pgram_log_freqs factor f fuel).length ≤ fuel := by
  induction fuel generalizing f with
  | zero => simp [pgram_log_freqs]
  | succ n ih =>
    rw [pgram_log_freqs]
    by_cases hf : f ≤ 20000
    · rw [if_pos hf]
      simpa using ih (f * factor)
    · rw [if_neg hf]
      simp

theorem pgram_log_freqs_length_of_nonpos {factor f : ℝ} (hfac : 0 < factor)
    (hf : f ≤ 0) (fuel : ℕ) :
    (pgram_log_freqs factor f fuel).length = fuel := by
  induction fuel generalizing f with
  | zero => simp [pgram_log_freqs]
  | succ n ih =>
    rw [pgram_log_freqs, if_pos (by linarith)]
    simpa using ih (mul_nonpos_of_nonpos_of_nonneg hf hfac.le)

theorem pgram_log_freqs_forall_le (factor : ℝ) (f : ℝ) (fuel : ℕ) :
    (pgram_log_freqs factor f fuel).Forall (fun x => x ≤ 20000) := by
  induction fuel generalizing f with
  | zero => rw [pgram_log_freqs]; trivial
  | succ n ih =>
    rw [pgram_log_freqs]
    by_cases hf : f ≤ 20000
    · rw [if_pos hf]
      exact (List.forall_cons _ _ _).2 ⟨hf, ih (f * factor)⟩
    · rw [if_neg hf]
      trivial

theorem pgram_log_freqs_eq_geometric (factor : ℝ) (f : ℝ) (fuel : ℕ) :
    pgram_log_freqs factor f fuel =
      (List.range (pgram_log_freqs factor f fuel).length).map
        (fun k => f * factor ^ k) := by
  induction fuel generalizing f with
  | zero => rw [pgram_log_freqs]; simp
  | succ n ih =>
    rw [pgram_log_freqs]
    by_cases hf : f ≤ 20000
    · rw [if_pos hf]
      simp only [List.length_cons, List.range_succ_eq_map, List.map_cons,
        List.map_map]
      rw [pow_zero, mul_one]
      congr 1
      rw [ih (f * factor)]
      simp only [List.length_map, List.length_range]
      apply List.map_congr_left
      intro k _
      simp only [Function.comp_apply]
      rw [pow_succ]
      ring
    · rw [if_neg hf]
      simp

theorem pgram_log_freqs_head (factor : ℝ) (f : ℝ) (fuel : ℕ) :
    ∀ y ∈ (pgram_log_freqs factor f fuel).head?, y = f := by
  cases fuel with
  | zero => rw [pgram_log_freqs]; simp
  | succ n =>
    rw [pgram_log_freqs]
    by_cases hf : f ≤ 20000
    · rw [if_pos hf]
      simp
    · rw [if_neg hf]
      simp

theorem pgram_log_freqs_chain {factor f : ℝ} (hfac : 1 < factor)
    (hf : 0 < f) (fuel : ℕ) :
    List.Chain' (· < ·) (pgram_log_freqs factor f fuel) := by
  induction fuel generalizing f with
  | zero => rw [pgram_log_freqs]; trivial
  | succ n ih =>
    rw [pgram_log_freqs]
    by_cases hle : f ≤ 20000
    · rw [if_pos hle]
      have hff : 0 < f * factor := by positivity
      rw [List.chain'_cons']
      refine ⟨?_, ih hff⟩
      intro y hy
      rw [pgram_log_freqs_head factor (f * factor) n y hy]
      nlinarith
    · rw [if_neg hle]
      trivial

/-- C5: for every `df`, `calculate_pgram_frequencies df 24` is the linear
region `[i * df | i = 2, ..., N-1]` with `N = ⌈24 / ln 2⌉ = 35`, followed by
the log region that starts at `N * df` and repeatedly multiplies by
`2 ^ (1/24)`, emitting each value while it is at most 20000 Hz and fewer
than 200 log bins have been emitted. -/
theorem pgram_frequencies_characterization (df : ℝ) :
    ⌈(24 : ℝ) / Real.log 2⌉₊ = 35 ∧
    calculate_pgram_frequencies df 24 =
      ((List.range' 2 33).map fun i : ℕ => (i : ℝ) * df)
        ++ pgram_log_freqs pgram_factor (35 * df) 200 ∧
    pgram_log_freqs pgram_factor (35 * df) 200 =
      (List.range (pgram_log_freqs pgram_factor (35 * df) 200).length).map
        (fun k => 35 * df * pgram_factor ^ k) ∧
    (pgram_log_freqs pgram_factor (35 * df) 200).Forall (fun x => x ≤ 20000) ∧
    (pgram_log_freqs pgram_factor (35 * df) 200).length ≤ 200 :=
  ⟨pgram_N_eq, calculate_pgram_frequencies_eq df,
    pgram_log_freqs_eq_geometric _ _ _,
    pgram_log_freqs_forall_le _ _ _,
    pgram_log_freqs_length_le _ _ _⟩

/-- C6: for every `df > 0`, `calculate_pgram_frequencies df 24` is strictly
increasing and its first two elements are `2 * df` and `3 * df`. -/
theorem pgram_frequencies_strictly_increasing (df : ℝ) (hdf : 0 < df) :
    List.Pairwise (· < ·) (calculate_pgram_frequencies df 24) ∧
    (calculate_pgram_frequencies df 24).take 2 = [2 * df, 3 * df] := by
  rw [calculate_pgram_frequencies_eq]
  constructor
  · rw [← List.chain'_iff_pairwise, List.chain'_append]
    refine ⟨?_, ?_, ?_⟩
    · rw [List.chain'_map]
      have hchain : List.Chain' (· < ·) (List.range' 2 33) :=
        List.chain'_iff_pairwise.mpr (List.pairwise_lt_range' 2 33)
      exact hchain.imp (fun a b (hab : a < b) =>
        mul_lt_mul_of_pos_right (by exact_mod_cast hab) hdf)
    · exact pgram_log_freqs_chain one_lt_pgram_factor (by positivity) 200
    · intro x hx y hy
      rw [pgram_log_freqs_head _ _ _ y hy]
      rw [List.getLast?_map] at hx
      have h34 : (List.range' 2 33).getLast? = some 34 := by decide
      rw [h34] at hx
      simp at hx
      linarith [hx]
  · rw [List.take_append_of_le_length
      (by rw [List.length_map, List.length_range']; norm_num), ← List.map_take]
    have h23 : (List.range' 2 33).take 2 = [2, 3] := by decide
    rw [h23]
    norm_num

/-- Witness for C6 at `df = 1`. -/
theorem pgram_frequencies_strictly_increasing_witness :
    (0 : ℝ) < 1 ∧
    (List.Pairwise (· < ·) (calculate_pgram_frequencies 1 24) ∧
      (calculate_pgram_frequencies 1 24).take 2 = [2 * 1, 3 * 1]) :=
  ⟨by norm_num, pgram_frequencies_strictly_increasing 1 (by norm_num)⟩

/-- C10: `calculate_pgram_frequencies` is total for every real `df`: the
log-region loop is cut off by the 200-bin cap, the result has at most
`(35 - 2) + 200 = 233` elements, and for `df ≤ 0` (where `f ≤ 20000` never
becomes false on its own) the cap binds exactly, giving 233 elements. -/
theorem pgram_frequencies_length_bound (df : ℝ) :
    (calculate_pgram_frequencies df 24).length ≤ 233 ∧
    (df ≤ 0 → (calculate_pgram_frequencies df 24).length = 233) := by
  rw [calculate_pgram_frequencies_eq]
  constructor
  · simp only [List.length_append, List.length_map, List.length_range']
    have := pgram_log_freqs_length_le pgram_factor (35 * df) 200
    omega
  · intro hdf
    simp only [List.length_append, List.length_map, List.length_range']
    have hfac : 0 < pgram_factor := Real.rpow_pos_of_pos (by norm_num) _
    have hstart : 35 * df ≤ 0 :=
      mul_nonpos_of_nonneg_of_nonpos (by norm_num) hdf
    have := pgram_log_freqs_length_of_nonpos hfac hstart 200
    omega

/-- Witness for C10 at `df = 0`. -/
theorem pgram_frequencies_length_bound_witness :
    (calculate_pgram_frequencies 0 24).length ≤ 233 ∧
    ((0 : ℝ) ≤ 0 ∧ (calculate_pgram_frequencies 0 24).length = 233) :=
  ⟨(pgram_frequencies_length_bound 0).1, le_refl 0,
    (pgram_frequencies_length_bound 0).2 (le_refl 0)⟩

/-- Witness for C2 at `bytes = [0xAB, 0xCD]`, `k = 0`. -/
theorem unpack_three_nibbles_eq_spec_witness :
    (∀ b ∈ [171, 205], b < 256) ∧ 0 + 2 < 2 * ([171, 205] : List ℕ).length ∧
    unpack_three_nibbles [171, 205] 0 =
      nibble_spec [171, 205] 0 ||| (nibble_spec [171, 205] 1 <<< 4)
        ||| (nibble_spec [171, 205] 2 <<< 8) :=
  ⟨by decide, by decide,
    unpack_three_nibbles_eq_spec [171, 205] 0 (by decide) (by decide)⟩

end Borealis
